import Mathlib

/-!
Shallow embedding of `server/storage/local/storage.go` (package
`localstorage`): a per-identity local file store offering `Get`, `Put` and
`Delete` over a configured root directory.  The on-disk state is modelled as
an association list from absolute paths (segment lists) to nodes; the first
binding for a key is the current one.  OS-level I/O faults (permission
errors, disk failures) are not modelled; path resolution, directory-listing
synthesis, truncating writes, recursive deletes and the handle-accounting of
`Get` are modelled faithfully from the source.
-/

namespace LocalStorage

/-- File content as a byte sequence. -/
abbrev Bytes := List Nat

/-- An on-disk node: a regular file (content, permission bits, modification
time) or a directory (permission bits, modification time). -/
inductive Node where
  | file (content : Bytes) (mode : Nat) (modTime : Nat)
  | dir (mode : Nat) (modTime : Nat)
  deriving DecidableEq

/-- An absolute path, as the list of its segments. -/
abbrev AbsPath := List String

/-- The filesystem state: an association list from absolute paths to nodes. -/
abbrev FS := List (AbsPath × Node)

/-- Look up the node stored at `k` (first binding wins). -/
def lookupFS (fs : FS) (k : AbsPath) : Option Node :=
  match fs with
  | [] => none
  | e :: rest => if e.1 = k then some e.2 else lookupFS rest k

/-- Store node `v` at path `k`. -/
def insertFS (fs : FS) (k : AbsPath) (v : Node) : FS :=
  (k, v) :: fs

/-- `os.RemoveAll`: remove the node at `k` and everything below it. -/
def removeAll (fs : FS) (k : AbsPath) : FS :=
  fs.filter (fun e => !(k.isPrefixOf e.1))

/-- `filepath.Clean` on a rooted path: lexically drop `""` and `"."`
segments and resolve `".."` by removing the preceding segment (a `".."`
that would climb above the root is dropped, as Go does for rooted paths). -/
def cleanAbs (segs : List String) : AbsPath :=
  segs.foldl (fun acc s =>
    if s = "" || s = "." then acc
    else if s = ".." then acc.dropLast
    else acc ++ [s]) []

/-- `filepath.Join(lfs.Path, charmID, path)`: concatenate the root, the
identity segment and the relative path segments, then clean. -/
def resolve (root : AbsPath) (id : String) (p : List String) : AbsPath :=
  cleanAbs (root ++ id :: p)

/-- The fields `Get` collects per entry (`charm.FileInfo`). -/
structure FileInfo where
  name : String
  isDir : Bool
  size : Nat
  modTime : Nat
  mode : Nat
  deriving DecidableEq

/-- `FileInfo.IsDir()` of a node. -/
def Node.isDirB : Node → Bool
  | .dir _ _ => true
  | .file _ _ _ => false

/-- `FileInfo.Size()` of a node (directory sizes are abstracted to 0). -/
def Node.byteSize : Node → Nat
  | .file c _ _ => c.length
  | .dir _ _ => 0

/-- `FileInfo.Mode()` of a node. -/
def Node.modeBits : Node → Nat
  | .file _ m _ => m
  | .dir m _ => m

/-- `FileInfo.ModTime()` of a node. -/
def Node.mtime : Node → Nat
  | .file _ _ t => t
  | .dir _ t => t

/-- The `fs.FileInfo` data `os.Stat` / `DirEntry.Info` yields for the node
named `name`. -/
def fileInfoOfNode (name : String) (n : Node) : FileInfo :=
  { name := name, isDir := n.isDirB, size := n.byteSize,
    modTime := n.mtime, mode := n.modeBits }

/-- `FileInfo.Name()` of the node at a path: its final segment. -/
def baseName (p : AbsPath) : String := p.getLastD ""

/-- Raw names of the immediate children of directory `fp`: final segments of
keys exactly one level below `fp`. -/
def childKeys (fs : FS) (fp : AbsPath) : List String :=
  fs.filterMap (fun e =>
    if fp.isPrefixOf e.1 && e.1.length == fp.length + 1 then
      some (e.1.getLastD "")
    else none)

/-- Insert a name into a name-sorted list. -/
def insertSorted (s : String) : List String → List String
  | [] => [s]
  | t :: ts => if s ≤ t then s :: t :: ts else t :: insertSorted s ts

/-- Insertion sort on names. -/
def sortNames : List String → List String
  | [] => []
  | s :: ss => insertSorted s (sortNames ss)

/-- `File.ReadDir(0)`: all immediate child names of the directory, sorted by
filename. -/
def childNames (fs : FS) (fp : AbsPath) : List String :=
  sortNames (childKeys fs fp).dedup

/-- The `charm.FileInfo` entry `Get` builds for the child named `n` of
directory `fp`. -/
def childInfo (fs : FS) (fp : AbsPath) (n : String) : FileInfo :=
  match lookupFS fs (fp ++ [n]) with
  | some node => fileInfoOfNode n node
  | none => fileInfoOfNode n (Node.file [] 0 0)

/-- The slice of entries `Get` accumulates for a directory: one entry per
immediate child, in `ReadDir` order. -/
def listing (fs : FS) (fp : AbsPath) : List FileInfo :=
  (childNames fs fp).map (childInfo fs fp)

/-- Bytes of a string (UTF-8), for reading a `DirFile` buffer. -/
def strBytes (s : String) : Bytes := s.toUTF8.toList.map (fun b => b.toNat)

/-- Modelled from the spec: a JSON string literal for an entry name
(escaping is irrelevant at this level of the model). -/
def jsonStr (s : String) : String := "\"" ++ s ++ "\""

/-- Modelled from the spec: the encoded form of one listing entry, with
fields name, isDir, size, modTime, mode (spec sec. 6); the concrete
`charm.FileInfo` struct and `encoding/json` live outside `src/`. -/
def encodeFileInfo (fi : FileInfo) : String :=
  "\x7b\"name\":" ++ jsonStr fi.name ++ ",\"isDir\":"
    ++ (if fi.isDir then "true" else "false")
    ++ ",\"size\":" ++ toString fi.size
    ++ ",\"modTime\":" ++ toString fi.modTime
    ++ ",\"mode\":" ++ toString fi.mode ++ "\x7d"

/-- Comma-separated concatenation. -/
def commaJoin : List String → String
  | [] => ""
  | [s] => s
  | s :: rest => s ++ "," ++ commaJoin rest

/-- Modelled from the spec: `json.Encoder.Encode` of a Go slice of entries.
A nil slice (`none`) encodes as `null`; a non-nil slice encodes as a JSON
array; `Encode` appends a newline. -/
def encodeJsonSlice : Option (List FileInfo) → String
  | none => "null\n"
  | some l => "[" ++ commaJoin (l.map encodeFileInfo) ++ "]\n"

/-- Error outcomes surfaced by the store. -/
inductive Err where
  | notFound
  | ioError
  deriving DecidableEq

/-- The `fs.File` returned by `Get`: either the real OS file, or a `DirFile`
wrapping the encoded listing together with the directory's own `FileInfo`. -/
inductive Handle where
  | osFile (content : Bytes) (info : FileInfo)
  | dirFile (buf : String) (info : FileInfo)
  deriving DecidableEq

/-- Sequential read-to-completion of a handle. -/
def readAll : Handle → Bytes
  | .osFile c _ => c
  | .dirFile s _ => strBytes s

/-- `Stat` on a returned handle (a `DirFile` built by `Get` always carries
a non-nil `fileInfo`, so its `Stat` never errors). -/
def Handle.statInfo : Handle → FileInfo
  | .osFile _ i => i
  | .dirFile _ i => i

/-- Releasing a returned handle: `DirFile.Close` literally returns nil, and
`os.File.Close` on the still-open file `Get` handed out succeeds; neither
depends on whether anything was read first. -/
def closeHandle : Handle → Except Err Unit := fun _ => .ok ()

/-- Outcome of a `Get` call, together with an account of the OS file handles
the call itself opened and the ones it closed before returning. -/
structure GetOut where
  result : Except Err Handle
  opened : Nat
  closed : Nat

/-- OS handles a `Get` call opened but neither closed before returning nor
handed to the caller as the result. -/
def GetOut.leaked (o : GetOut) : Nat :=
  o.opened - o.closed - (match o.result with | .ok (.osFile _ _) => 1 | _ => 0)

/-- `Get`: stat the resolved path (absent gives `fs.ErrNotExist`), then open
it with `os.Open`.  For a directory: read its entries, accumulate a
`FileInfo` slice initialized as an empty non-nil slice, JSON-encode it, and
return a `DirFile` carrying that buffer and the directory's own stat — the
opened `os.File` is not closed on this branch.  For a regular file: return
the opened `os.File` itself (the caller releases it). -/
def Get (fs : FS) (root : AbsPath) (id : String) (p : List String) : GetOut :=
  match lookupFS fs (resolve root id p) with
  | none => { result := .error .notFound, opened := 0, closed := 0 }
  | some (.dir dm dt) =>
      { result := .ok (.dirFile
          (encodeJsonSlice (some (listing fs (resolve root id p))))
          (fileInfoOfNode (baseName (resolve root id p)) (.dir dm dt))),
        opened := 1, closed := 0 }
  | some (.file c fm ft) =>
      { result := .ok (.osFile c
          (fileInfoOfNode (baseName (resolve root id p)) (.file c fm ft))),
        opened := 1, closed := 0 }

/-- `fs.ModeDir` is bit 31 of a Go `fs.FileMode`. -/
def modeIsDir (m : Nat) : Bool := m.testBit 31

/-- The mode `os.Create` gives a freshly created file (0666, before umask). -/
def defaultFileMode : Nat := 438

/-- Modelled from the spec: worker for `storage.EnsureDir` (the function is
not under `src/`): walk the missing prefixes, creating each absent one as a
directory with the given mode (spec sec. 4.1, 4.3); a prefix already present
as a directory is fine, one present as a regular file is an error. -/
def ensureDirAux (fs : FS) (done : AbsPath) (rest : List String) (m now : Nat) :
    Except Err FS :=
  match rest with
  | [] => .ok fs
  | s :: rest' =>
      match lookupFS fs (done ++ [s]) with
      | some (.dir _ _) => ensureDirAux fs (done ++ [s]) rest' m now
      | some (.file _ _ _) => .error .ioError
      | none => ensureDirAux (insertFS fs (done ++ [s]) (.dir m now)) (done ++ [s]) rest' m now

/-- Modelled from the spec: `storage.EnsureDir(path, mode)` — create the
directory and all missing parents with the given permission bits; no error
when it already exists. -/
def ensureDir (fs : FS) (p : AbsPath) (m now : Nat) : Except Err FS :=
  ensureDirAux fs [] p m now

/-- `Put`: resolve the path; a directory mode just ensures the directory
exists (the reader is ignored); otherwise ensure the parent directories,
`os.Create` the target (truncating an existing regular file and keeping its
mode; failing on an existing directory), copy all bytes from the reader, and
`Chmod` to the given mode when it is non-zero. -/
def Put (fs : FS) (root : AbsPath) (id : String) (p : List String) (r : Bytes)
    (m now : Nat) : Except Err FS :=
  if modeIsDir m then ensureDir fs (resolve root id p) m now
  else
    match ensureDir fs (resolve root id p).dropLast m now with
    | .error e => .error e
    | .ok fs1 =>
        match lookupFS fs1 (resolve root id p) with
        | some (.dir _ _) => .error .ioError
        | some (.file _ om _) =>
            .ok (insertFS fs1 (resolve root id p)
              (.file r (if m ≠ 0 then m else om) now))
        | none =>
            .ok (insertFS fs1 (resolve root id p)
              (.file r (if m ≠ 0 then m else defaultFileMode) now))

/-- `Delete`: `os.RemoveAll` on the resolved path — removes the node and its
whole subtree; an absent path is not an error (no modelled OS faults, so the
call always succeeds). -/
def Delete (fs : FS) (root : AbsPath) (id : String) (p : List String) :
    Except Err FS :=
  .ok (removeAll fs (resolve root id p))

/-- Whether an `Except` outcome is a success. -/
def isOkE {α : Type} : Except Err α → Bool
  | .ok _ => true
  | .error _ => false

theorem lookupFS_insert_self (fs : FS) (k : AbsPath) (v : Node) :
    lookupFS (insertFS fs k v) k = some v := by
  simp [insertFS, lookupFS]

theorem lookupFS_insert_ne (fs : FS) (k k' : AbsPath) (v : Node) (h : k' ≠ k) :
    lookupFS (insertFS fs k v) k' = lookupFS fs k' := by
  simp only [insertFS, lookupFS]
  rw [if_neg (Ne.symm h)]

theorem isPrefixOf_true_iff (l₁ l₂ : List String) :
    l₁.isPrefixOf l₂ = true ↔ ∃ t, l₂ = l₁ ++ t := by
  induction l₁ generalizing l₂ with
  | nil =>
      constructor
      · intro _; exact ⟨l₂, rfl⟩
      · intro _; cases l₂ <;> rfl
  | cons a as ih =>
      cases l₂ with
      | nil =>
          constructor
          · intro h; exact absurd h (by simp [List.isPrefixOf])
          · rintro ⟨t, ht⟩; simp at ht
      | cons b bs =>
          have hd : (a :: as).isPrefixOf (b :: bs) = ((a == b) && as.isPrefixOf bs) := rfl
          rw [hd, Bool.and_eq_true, beq_iff_eq, ih]
          constructor
          · rintro ⟨rfl, t, rfl⟩; exact ⟨t, rfl⟩
          · rintro ⟨t, ht⟩
            injection ht with h1 h2
            exact ⟨h1.symm, t, h2⟩

theorem isPrefixOf_self (l : List String) : l.isPrefixOf l = true :=
  (isPrefixOf_true_iff l l).mpr ⟨[], (List.append_nil l).symm⟩

theorem lookupFS_removeAll_of_prefixOf (fs : FS) (k k' : AbsPath)
    (h : k.isPrefixOf k' = true) : lookupFS (removeAll fs k) k' = none := by
  induction fs with
  | nil => rfl
  | cons e rest ih =>
      rw [removeAll, List.filter_cons]
      by_cases hk : (!(k.isPrefixOf e.1)) = true
      · rw [if_pos hk]
        have hne : e.1 ≠ k' := by
          intro he
          rw [he, h] at hk
          exact absurd hk (by decide)
        simp only [lookupFS]
        rw [if_neg hne]
        exact ih
      · rw [if_neg hk]
        exact ih

theorem mem_insertSorted (s t : String) (l : List String) :
    t ∈ insertSorted s l ↔ t = s ∨ t ∈ l := by
  induction l with
  | nil => simp [insertSorted]
  | cons a as ih =>
      simp only [insertSorted]
      split
      · simp only [List.mem_cons]
      · simp only [List.mem_cons, ih]
        tauto

theorem mem_sortNames (t : String) (l : List String) : t ∈ sortNames l ↔ t ∈ l := by
  induction l with
  | nil => simp [sortNames]
  | cons a as ih => simp [sortNames, mem_insertSorted, ih, List.mem_cons]

theorem lookupFS_isSome_of_mem (fs : FS) (k : AbsPath) (v : Node)
    (h : (k, v) ∈ fs) : ∃ v', lookupFS fs k = some v' := by
  induction fs with
  | nil => cases h
  | cons e rest ih =>
      by_cases he : e.1 = k
      · exact ⟨e.2, by simp only [lookupFS, if_pos he]⟩
      · have hrest : (k, v) ∈ rest := by
          rcases List.mem_cons.mp h with h1 | h2
          · exact absurd (by rw [← h1]) he
          · exact h2
        rcases ih hrest with ⟨v', hv'⟩
        exact ⟨v', by simp only [lookupFS]; rw [if_neg he]; exact hv'⟩

theorem mem_of_lookupFS_some (fs : FS) (k : AbsPath) (v : Node)
    (h : lookupFS fs k = some v) : (k, v) ∈ fs := by
  induction fs with
  | nil => cases h
  | cons e rest ih =>
      simp only [lookupFS] at h
      by_cases he : e.1 = k
      · rw [if_pos he] at h
        injection h with h
        exact List.mem_cons.mpr (Or.inl (by rw [← he, ← h]))
      · rw [if_neg he] at h
        exact List.mem_cons.mpr (Or.inr (ih h))

theorem getLastD_append_singleton (l : List String) (x d : String) :
    (l ++ [x]).getLastD d = x := by
  induction l generalizing d with
  | nil => rfl
  | cons a as ih =>
      rw [List.cons_append, List.getLastD_cons]
      exact ih a

theorem childKeys_sound (fs : FS) (fp : AbsPath) (n : String)
    (h : n ∈ childKeys fs fp) : ∃ nd, lookupFS fs (fp ++ [n]) = some nd := by
  rw [childKeys] at h
  rcases List.mem_filterMap.mp h with ⟨e, he, hf⟩
  by_cases hc : (fp.isPrefixOf e.1 && e.1.length == fp.length + 1) = true
  · rw [if_pos hc] at hf
    injection hf with hf
    rw [Bool.and_eq_true] at hc
    obtain ⟨hp, hl⟩ := hc
    rcases (isPrefixOf_true_iff fp e.1).mp hp with ⟨t, ht⟩
    have hlen : e.1.length = fp.length + 1 := by
      simpa using hl
    have htlen : t.length = 1 := by
      rw [ht, List.length_append] at hlen
      omega
    cases t with
    | nil => simp at htlen
    | cons x t' =>
        have ht' : t' = [] := by
          simpa using htlen
        subst ht'
        have hkey : e.1 = fp ++ [x] := ht
        have hx : x = n := by
          rw [hkey, getLastD_append_singleton] at hf
          exact hf
        subst hx
        rcases lookupFS_isSome_of_mem fs e.1 e.2 (by
            have : (e.1, e.2) = e := Prod.mk.eta
            rw [this]; exact he) with ⟨v', hv'⟩
        rw [hkey] at hv'
        exact ⟨v', hv'⟩
  · rw [if_neg hc] at hf
    cases hf

theorem childKeys_complete (fs : FS) (fp : AbsPath) (n : String) (nd : Node)
    (h : lookupFS fs (fp ++ [n]) = some nd) : n ∈ childKeys fs fp := by
  have hm : (fp ++ [n], nd) ∈ fs := mem_of_lookupFS_some _ _ _ h
  rw [childKeys]
  apply List.mem_filterMap.mpr
  refine ⟨(fp ++ [n], nd), hm, ?_⟩
  have hc : (fp.isPrefixOf (fp ++ [n]) && (fp ++ [n]).length == fp.length + 1) = true := by
    rw [Bool.and_eq_true]
    constructor
    · exact (isPrefixOf_true_iff _ _).mpr ⟨[n], rfl⟩
    · simp [List.length_append]
  rw [if_pos hc, getLastD_append_singleton]

theorem childInfo_name (fs : FS) (fp : AbsPath) (n : String) :
    (childInfo fs fp n).name = n := by
  rw [childInfo]
  cases lookupFS fs (fp ++ [n]) <;> rfl

theorem ensureDirAux_preserves (rest : List String) (fs : FS) (done : AbsPath)
    (m now : Nat) (fs' : FS) (h : ensureDirAux fs done rest m now = .ok fs') :
    ∀ k v, lookupFS fs k = some v → lookupFS fs' k = some v := by
  induction rest generalizing fs done with
  | nil =>
      intro k v hk
      rw [ensureDirAux] at h
      injection h with h
      rw [← h]
      exact hk
  | cons s rest' ih =>
      intro k v hk
      rw [ensureDirAux] at h
      split at h
      · exact ih _ _ h k v hk
      · cases h
      · rename_i hl
        apply ih _ _ h k v
        have hne : k ≠ done ++ [s] := by
          intro he
          rw [he, hl] at hk
          cases hk
        rw [lookupFS_insert_ne _ _ _ _ hne]
        exact hk

theorem ensureDirAux_dirs (rest : List String) (fs : FS) (done : AbsPath)
    (m now : Nat) (fs' : FS) (h : ensureDirAux fs done rest m now = .ok fs') :
    ∀ r1, r1 ≠ [] → r1.isPrefixOf rest = true →
      ∃ dm dt, lookupFS fs' (done ++ r1) = some (.dir dm dt) := by
  induction rest generalizing fs done with
  | nil =>
      intro r1 hne hp
      rcases (isPrefixOf_true_iff _ _).mp hp with ⟨t, ht⟩
      exact absurd (List.append_eq_nil.mp ht.symm).1 hne
  | cons s rest' ih =>
      intro r1 hne hp
      rcases (isPrefixOf_true_iff _ _).mp hp with ⟨t, ht⟩
      cases r1 with
      | nil => exact absurd rfl hne
      | cons x r1' =>
          injection ht with h1 h2
          subst h1
          rw [ensureDirAux] at h
          split at h
          · rename_i dm dt hl
            cases r1' with
            | nil =>
                refine ⟨dm, dt, ?_⟩
                exact ensureDirAux_preserves rest' _ _ m now fs' h (done ++ [s]) _ hl
            | cons y r1'' =>
                have hpre : (y :: r1'').isPrefixOf rest' = true :=
                  (isPrefixOf_true_iff _ _).mpr ⟨t, h2⟩
                have := ih _ _ h (y :: r1'') (by simp) hpre
                rw [← List.append_cons] at this
                exact this
          · cases h
          · rename_i hl
            cases r1' with
            | nil =>
                refine ⟨m, now, ?_⟩
                have hself : lookupFS (insertFS fs (done ++ [s]) (.dir m now))
                    (done ++ [s]) = some (.dir m now) := lookupFS_insert_self _ _ _
                exact ensureDirAux_preserves rest' _ _ m now fs' h (done ++ [s]) _ hself
            | cons y r1'' =>
                have hpre : (y :: r1'').isPrefixOf rest' = true :=
                  (isPrefixOf_true_iff _ _).mpr ⟨t, h2⟩
                have := ih _ _ h (y :: r1'') (by simp) hpre
                rw [← List.append_cons] at this
                exact this

theorem ensureDirAux_creates (rest : List String) (fs : FS) (done : AbsPath)
    (m now : Nat) (fs' : FS) (h : ensureDirAux fs done rest m now = .ok fs') :
    ∀ r1, r1 ≠ [] → r1.isPrefixOf rest = true → lookupFS fs (done ++ r1) = none →
      lookupFS fs' (done ++ r1) = some (.dir m now) := by
  induction rest generalizing fs done with
  | nil =>
      intro r1 hne hp _
      rcases (isPrefixOf_true_iff _ _).mp hp with ⟨t, ht⟩
      exact absurd (List.append_eq_nil.mp ht.symm).1 hne
  | cons s rest' ih =>
      intro r1 hne hp habs
      rcases (isPrefixOf_true_iff _ _).mp hp with ⟨t, ht⟩
      cases r1 with
      | nil => exact absurd rfl hne
      | cons x r1' =>
          injection ht with h1 h2
          subst h1
          rw [ensureDirAux] at h
          split at h
          · rename_i dm dt hl
            cases r1' with
            | nil =>
                rw [hl] at habs
                cases habs
            | cons y r1'' =>
                have hpre : (y :: r1'').isPrefixOf rest' = true :=
                  (isPrefixOf_true_iff _ _).mpr ⟨t, h2⟩
                have habs' : lookupFS fs ((done ++ [s]) ++ (y :: r1'')) = none := by
                  rw [← List.append_cons]
                  exact habs
                have := ih _ _ h (y :: r1'') (by simp) hpre habs'
                rw [← List.append_cons] at this
                exact this
          · cases h
          · rename_i hl
            cases r1' with
            | nil =>
                have hself : lookupFS (insertFS fs (done ++ [s]) (.dir m now))
                    (done ++ [s]) = some (.dir m now) := lookupFS_insert_self _ _ _
                exact ensureDirAux_preserves rest' _ _ m now fs' h (done ++ [s]) _ hself
            | cons y r1'' =>
                have hpre : (y :: r1'').isPrefixOf rest' = true :=
                  (isPrefixOf_true_iff _ _).mpr ⟨t, h2⟩
                have hne2 : (done ++ [s]) ++ (y :: r1'') ≠ done ++ [s] := by
                  intro he
                  have := congrArg List.length he
                  simp [List.length_append] at this
                have habs' : lookupFS (insertFS fs (done ++ [s]) (.dir m now))
                    ((done ++ [s]) ++ (y :: r1'')) = none := by
                  rw [lookupFS_insert_ne _ _ _ _ hne2, ← List.append_cons]
                  exact habs
                have := ih _ _ h (y :: r1'') (by simp) hpre habs'
                rw [← List.append_cons] at this
                exact this

theorem ensureDirAux_ok_of_dirs (rest : List String) (fs : FS) (done : AbsPath)
    (m now : Nat)
    (h : ∀ r1, r1 ≠ [] → r1.isPrefixOf rest = true →
      ∃ dm dt, lookupFS fs (done ++ r1) = some (.dir dm dt)) :
    ensureDirAux fs done rest m now = .ok fs := by
  induction rest generalizing done with
  | nil => rfl
  | cons s rest' ih =>
      rcases h [s] (by simp) ((isPrefixOf_true_iff _ _).mpr ⟨rest', rfl⟩) with ⟨dm, dt, hl⟩
      rw [ensureDirAux, hl]
      exact ih (done ++ [s]) (fun r1 hne hp => by
        rcases (isPrefixOf_true_iff _ _).mp hp with ⟨t, ht⟩
        have hsp : (s :: r1).isPrefixOf (s :: rest') = true :=
          (isPrefixOf_true_iff _ _).mpr ⟨t, by rw [ht, List.cons_append]⟩
        rcases h (s :: r1) (by simp) hsp with ⟨dm', dt', hl'⟩
        refine ⟨dm', dt', ?_⟩
        rw [← List.append_cons]
        exact hl')

theorem ensureDirAux_untouched (rest : List String) (fs : FS) (done : AbsPath)
    (m now : Nat) (fs' : FS) (h : ensureDirAux fs done rest m now = .ok fs')
    (k : AbsPath) (hk : done.length + rest.length < k.length) :
    lookupFS fs' k = lookupFS fs k := by
  induction rest generalizing fs done with
  | nil =>
      rw [ensureDirAux] at h
      injection h with h
      rw [← h]
  | cons s rest' ih =>
      have hlen : (done ++ [s]).length + rest'.length < k.length := by
        rw [List.length_append]
        simp only [List.length_cons, List.length_nil] at hk ⊢
        omega
      rw [ensureDirAux] at h
      split at h
      · exact ih _ _ h hlen
      · cases h
      · have hstep := ih _ _ h hlen
        rw [hstep]
        have hne : k ≠ done ++ [s] := by
          intro he
          have hke := congrArg List.length he
          rw [List.length_append] at hke
          simp only [List.length_cons, List.length_nil] at hke hk
          omega
        rw [lookupFS_insert_ne _ _ _ _ hne]

example : resolve ["srv"] "A" ["..", "B", "secret"] = ["srv", "B", "secret"] := by decide

example : (Get [(["r", "A", "f"], Node.file [7] 438 5)] ["r"] "A" ["f"]).result
    = .ok (.osFile [7] (fileInfoOfNode "f" (Node.file [7] 438 5))) := rfl

example : Put [] ["r"] "A" ["f"] [7] 0 5
    = .ok [(["r", "A", "f"], Node.file [7] 438 5),
           (["r", "A"], Node.dir 0 5), (["r"], Node.dir 0 5)] := rfl

example : encodeJsonSlice (some []) = "[]\n" := rfl

/-- C1: for every identity, relative path that does not resolve to a
directory (as any path resolving to one makes `Put` fail), byte content and
non-directory mode, `Put` followed by `Get` on the same identity and path
returns a handle whose sequentially read content is byte-for-byte the
content that was written. -/
theorem put_then_get_roundtrip (fs fs' : FS) (root : AbsPath) (id : String)
    (p : List String) (c : Bytes) (m now : Nat)
    (hm : modeIsDir m = false)
    (hput : Put fs root id p c m now = .ok fs') :
    ∃ h, (Get fs' root id p).result = .ok h ∧ readAll h = c := by
  rw [Put, if_neg (by simp [hm])] at hput
  split at hput
  · cases hput
  · rename_i fs1 hed
    split at hput
    · cases hput
    · rename_i x om y hl
      injection hput with hput
      subst hput
      refine ⟨.osFile c (fileInfoOfNode (baseName (resolve root id p))
          (.file c (if m ≠ 0 then m else om) now)), ?_, rfl⟩
      simp only [Get, lookupFS_insert_self]
    · rename_i hl
      injection hput with hput
      subst hput
      refine ⟨.osFile c (fileInfoOfNode (baseName (resolve root id p))
          (.file c (if m ≠ 0 then m else defaultFileMode) now)), ?_, rfl⟩
      simp only [Get, lookupFS_insert_self]

/-- C1 witness: writing bytes `[7, 8]` under identity `A` at `f` and reading
them back through `Get` on the concrete store produced by `Put`. -/
theorem put_then_get_roundtrip_witness :
    ∃ h, (Get [(["r", "A", "f"], Node.file [7, 8] 438 5),
               (["r", "A"], Node.dir 0 5), (["r"], Node.dir 0 5)]
            ["r"] "A" ["f"]).result = .ok h ∧ readAll h = [7, 8] :=
  put_then_get_roundtrip [] _ ["r"] "A" ["f"] [7, 8] 0 5 (by decide) rfl

/-- C2: the claim fails on the code — with store root `srv`, identity `A`
and relative path `../B/secret`, `filepath.Join` cleans the `..` so the
resolved location lies outside `srv/A`, and `Get` called with identity `A`
reads the file stored under identity `B`. -/
theorem get_escapes_identity_namespace :
    resolve ["srv"] "A" ["..", "B", "secret"] = ["srv", "B", "secret"] ∧
    (["srv", "A"].isPrefixOf (resolve ["srv"] "A" ["..", "B", "secret"])) = false ∧
    (Get [(["srv", "B", "secret"], Node.file [9] 420 3)] ["srv"] "A"
        ["..", "B", "secret"]).result
      = .ok (.osFile [9] (fileInfoOfNode "secret" (Node.file [9] 420 3))) :=
  ⟨rfl, rfl, rfl⟩

/-- C3: for an identity and path resolving to an existing directory, `Get`
returns a handle whose content is the single encoded document built from
the directory's immediate children — every entry corresponds to an
immediate child and carries its name, is-directory flag, size, modification
time and permission bits; every immediate child is represented — and whose
`Stat` is the directory's own metadata with the directory flag set. -/
theorem get_directory_listing_spec (fs : FS) (root : AbsPath) (id : String)
    (p : List String) (dm dt : Nat)
    (hdir : lookupFS fs (resolve root id p) = some (.dir dm dt)) :
    (Get fs root id p).result
      = .ok (.dirFile (encodeJsonSlice (some (listing fs (resolve root id p))))
          (fileInfoOfNode (baseName (resolve root id p)) (.dir dm dt))) ∧
    (∀ fi ∈ listing fs (resolve root id p), ∃ nd : Node,
        lookupFS fs (resolve root id p ++ [fi.name]) = some nd ∧
        fi.isDir = nd.isDirB ∧ fi.size = nd.byteSize ∧
        fi.modTime = nd.mtime ∧ fi.mode = nd.modeBits) ∧
    (∀ (n : String) (nd : Node), lookupFS fs (resolve root id p ++ [n]) = some nd →
        ∃ fi ∈ listing fs (resolve root id p), fi.name = n) ∧
    Handle.statInfo (.dirFile (encodeJsonSlice (some (listing fs (resolve root id p))))
          (fileInfoOfNode (baseName (resolve root id p)) (.dir dm dt)))
      = fileInfoOfNode (baseName (resolve root id p)) (.dir dm dt) ∧
    (fileInfoOfNode (baseName (resolve root id p)) (.dir dm dt)).isDir = true := by
  refine ⟨?_, ?_, ?_, rfl, rfl⟩
  · simp only [Get, hdir]
  · intro fi hfi
    rcases List.mem_map.mp hfi with ⟨n, hn, hfi'⟩
    subst hfi'
    have hn' : n ∈ childKeys fs (resolve root id p) :=
      List.mem_dedup.mp ((mem_sortNames n _).mp hn)
    rcases childKeys_sound fs _ n hn' with ⟨nd, hnd⟩
    have hci : childInfo fs (resolve root id p) n = fileInfoOfNode n nd := by
      rw [childInfo, hnd]
    rw [hci]
    exact ⟨nd, hnd, rfl, rfl, rfl, rfl⟩
  · intro n nd hnd
    refine ⟨childInfo fs (resolve root id p) n, ?_, childInfo_name _ _ _⟩
    apply List.mem_map_of_mem
    exact (mem_sortNames n _).mpr (List.mem_dedup.mpr (childKeys_complete fs _ n nd hnd))

/-- C3 witness: listing a concrete directory `d` with one file child `x`. -/
theorem get_directory_listing_spec_witness :
    (Get [(["r", "A", "d"], Node.dir 448 3), (["r", "A", "d", "x"], Node.file [1, 2] 420 4)]
        ["r"] "A" ["d"]).result
      = .ok (.dirFile (encodeJsonSlice (some (listing
          [(["r", "A", "d"], Node.dir 448 3), (["r", "A", "d", "x"], Node.file [1, 2] 420 4)]
          (resolve ["r"] "A" ["d"]))))
          (fileInfoOfNode (baseName (resolve ["r"] "A" ["d"])) (.dir 448 3))) ∧
    (∀ fi ∈ listing [(["r", "A", "d"], Node.dir 448 3),
          (["r", "A", "d", "x"], Node.file [1, 2] 420 4)] (resolve ["r"] "A" ["d"]),
        ∃ nd : Node,
        lookupFS [(["r", "A", "d"], Node.dir 448 3), (["r", "A", "d", "x"], Node.file [1, 2] 420 4)]
            (resolve ["r"] "A" ["d"] ++ [fi.name]) = some nd ∧
        fi.isDir = nd.isDirB ∧ fi.size = nd.byteSize ∧
        fi.modTime = nd.mtime ∧ fi.mode = nd.modeBits) ∧
    (∀ (n : String) (nd : Node),
        lookupFS [(["r", "A", "d"], Node.dir 448 3), (["r", "A", "d", "x"], Node.file [1, 2] 420 4)]
            (resolve ["r"] "A" ["d"] ++ [n]) = some nd →
        ∃ fi ∈ listing [(["r", "A", "d"], Node.dir 448 3),
            (["r", "A", "d", "x"], Node.file [1, 2] 420 4)] (resolve ["r"] "A" ["d"]),
          fi.name = n) ∧
    Handle.statInfo (.dirFile (encodeJsonSlice (some (listing
          [(["r", "A", "d"], Node.dir 448 3), (["r", "A", "d", "x"], Node.file [1, 2] 420 4)]
          (resolve ["r"] "A" ["d"]))))
          (fileInfoOfNode (baseName (resolve ["r"] "A" ["d"])) (.dir 448 3)))
      = fileInfoOfNode (baseName (resolve ["r"] "A" ["d"])) (.dir 448 3) ∧
    (fileInfoOfNode (baseName (resolve ["r"] "A" ["d"])) (.dir 448 3)).isDir = true :=
  get_directory_listing_spec
    [(["r", "A", "d"], Node.dir 448 3), (["r", "A", "d", "x"], Node.file [1, 2] 420 4)]
    ["r"] "A" ["d"] 448 3 rfl

/-- C4: the claim fails on the code — evaluated at an existing directory,
`Get` opens one OS file handle, closes none before returning, and what it
returns is a `DirFile`, not the opened file: the handle it opened is
neither released nor handed to the caller. -/
theorem get_on_directory_leaks_os_handle :
    (Get [(["r", "A", "d"], Node.dir 448 2)] ["r"] "A" ["d"]).opened = 1 ∧
    (Get [(["r", "A", "d"], Node.dir 448 2)] ["r"] "A" ["d"]).closed = 0 ∧
    GetOut.leaked (Get [(["r", "A", "d"], Node.dir 448 2)] ["r"] "A" ["d"]) = 1 ∧
    (Get [(["r", "A", "d"], Node.dir 448 2)] ["r"] "A" ["d"]).result
      = .ok (.dirFile (encodeJsonSlice (some []))
          (fileInfoOfNode "d" (Node.dir 448 2))) :=
  ⟨rfl, rfl, rfl, rfl⟩

/-- C5: when the resolved location does not exist, `Get` fails with the
Not-Found signal, returns no handle, and opens nothing. -/
theorem get_absent_not_found (fs : FS) (root : AbsPath) (id : String)
    (p : List String) (h : lookupFS fs (resolve root id p) = none) :
    (Get fs root id p).result = .error .notFound ∧ (Get fs root id p).opened = 0 := by
  constructor <;> simp only [Get, h]

/-- C5 witness: `Get` on an empty store. -/
theorem get_absent_not_found_witness :
    (Get [] ["r"] "A" ["x"]).result = .error .notFound ∧
    (Get [] ["r"] "A" ["x"]).opened = 0 :=
  get_absent_not_found [] ["r"] "A" ["x"] rfl

/-- C6: `Delete` succeeds for every prior state — in particular when the
resolved location does not exist — and never reports Not-Found (the model
carries no OS-level faults, the only failures the code would pass through);
deleting again right after a delete changes nothing. -/
theorem delete_total_never_notFound (fs : FS) (root : AbsPath) (id : String)
    (p : List String) :
    isOkE (Delete fs root id p) = true ∧
    Delete (removeAll fs (resolve root id p)) root id p = Delete fs root id p := by
  constructor
  · rfl
  · simp only [Delete, removeAll, List.filter_filter, Except.ok.injEq]
    simp [Bool.and_self]

/-- C7: a successful `Delete` followed by `Get` on the same identity and
path yields Not-Found, and no node at the resolved location or anywhere
below it survives the delete, whatever the prior state. -/
theorem delete_then_get_not_found (fs fs' : FS) (root : AbsPath) (id : String)
    (p : List String) (h : Delete fs root id p = .ok fs') :
    (Get fs' root id p).result = .error .notFound ∧
    ∀ k : AbsPath, (resolve root id p).isPrefixOf k = true → lookupFS fs' k = none := by
  have hfs : fs' = removeAll fs (resolve root id p) := by
    rw [Delete] at h
    injection h with h
    exact h.symm
  subst hfs
  constructor
  · have hnone : lookupFS (removeAll fs (resolve root id p)) (resolve root id p) = none :=
      lookupFS_removeAll_of_prefixOf _ _ _ (isPrefixOf_self _)
    simp only [Get, hnone]
  · intro k hk
    exact lookupFS_removeAll_of_prefixOf _ _ _ hk

/-- C7 witness: deleting a concrete file and getting it again. -/
theorem delete_then_get_not_found_witness :
    (Get (removeAll [(["r", "A", "f"], Node.file [1] 438 0)] (resolve ["r"] "A" ["f"]))
        ["r"] "A" ["f"]).result = .error .notFound ∧
    ∀ k : AbsPath, (resolve ["r"] "A" ["f"]).isPrefixOf k = true →
      lookupFS (removeAll [(["r", "A", "f"], Node.file [1] 438 0)]
        (resolve ["r"] "A" ["f"])) k = none :=
  delete_then_get_not_found [(["r", "A", "f"], Node.file [1] 438 0)] _ ["r"] "A" ["f"] rfl

/-- C8: with a directory mode, `Put` ignores the content source, creates the
directory and all missing parent directories with the given permission bits,
and succeeds without change when they already exist as directories; with a
non-directory mode, a successful `Put` leaves the parent directories in
place and stores the target file with exactly the given bytes, applying the
given permission bits when the mode is non-zero and otherwise leaving the
mode the OS produced (the prior file mode, or the creation default for a
fresh file). -/
theorem put_modes_spec (fs : FS) (root : AbsPath) (id : String) (p : List String)
    (r : Bytes) (m now : Nat) :
    (modeIsDir m = true →
      (∀ r' : Bytes, Put fs root id p r' m now = Put fs root id p r m now) ∧
      (∀ fs' : FS, Put fs root id p r m now = .ok fs' →
        (∀ q : AbsPath, q ≠ [] → q.isPrefixOf (resolve root id p) = true →
          ∃ dm dt, lookupFS fs' q = some (.dir dm dt)) ∧
        (∀ q : AbsPath, q ≠ [] → q.isPrefixOf (resolve root id p) = true →
          lookupFS fs q = none → lookupFS fs' q = some (.dir m now))) ∧
      ((∀ q : AbsPath, q ≠ [] → q.isPrefixOf (resolve root id p) = true →
          ∃ dm dt, lookupFS fs q = some (.dir dm dt)) →
        Put fs root id p r m now = .ok fs)) ∧
    (modeIsDir m = false →
      ∀ fs' : FS, Put fs root id p r m now = .ok fs' →
        lookupFS fs' (resolve root id p)
          = some (.file r (if m ≠ 0 then m
              else match lookupFS fs (resolve root id p) with
                   | some (.file _ om _) => om
                   | _ => defaultFileMode) now) ∧
        (∀ q : AbsPath, q ≠ [] → q.isPrefixOf (resolve root id p).dropLast = true →
          ∃ dm dt, lookupFS fs' q = some (.dir dm dt))) := by
  constructor
  · intro hm
    refine ⟨?_, ?_, ?_⟩
    · intro r'
      simp [Put, hm]
    · intro fs' h
      rw [Put, if_pos hm] at h
      constructor
      · intro q hq hqp
        have := ensureDirAux_dirs (resolve root id p) fs [] m now fs' h q hq hqp
        simpa using this
      · intro q hq hqp hnone
        have := ensureDirAux_creates (resolve root id p) fs [] m now fs' h q hq hqp
          (by simpa using hnone)
        simpa using this
    · intro hall
      rw [Put, if_pos hm]
      exact ensureDirAux_ok_of_dirs (resolve root id p) fs [] m now (fun r1 h1 h2 => by
        simpa using hall r1 h1 h2)
  · intro hm fs' h
    rw [Put, if_neg (by simp [hm])] at h
    split at h
    · cases h
    · rename_i fs1 hed
      have hsame : lookupFS fs1 (resolve root id p) = lookupFS fs (resolve root id p) := by
        cases hfp : resolve root id p with
        | nil =>
            rw [hfp] at hed
            injection hed with hed
            rw [hed]
        | cons a l =>
            rw [hfp] at hed
            refine ensureDirAux_untouched (a :: l).dropLast fs [] m now fs1 hed (a :: l) ?_
            simp only [List.length_nil, List.length_dropLast, List.length_cons]
            omega
      have hpar : ∀ q : AbsPath, q ≠ [] →
          q.isPrefixOf (resolve root id p).dropLast = true →
          ∃ dm dt, lookupFS fs1 q = some (.dir dm dt) := by
        intro q hq hqp
        have := ensureDirAux_dirs (resolve root id p).dropLast fs [] m now fs1 hed q hq hqp
        simpa using this
      have hqne : ∀ q : AbsPath, q ≠ [] →
          q.isPrefixOf (resolve root id p).dropLast = true →
          q ≠ resolve root id p := by
        intro q hq hqp he
        rcases (isPrefixOf_true_iff _ _).mp hqp with ⟨t, ht⟩
        have h1 := congrArg List.length ht
        rw [List.length_dropLast, List.length_append] at h1
        have h2 := congrArg List.length he
        have h3 : 0 < q.length := List.length_pos.mpr hq
        omega
      split at h
      · cases h
      · rename_i x om y hl
        injection h with h
        subst h
        constructor
        · rw [lookupFS_insert_self]
          rw [hsame] at hl
          rw [hl]
        · intro q hq hqp
          rcases hpar q hq hqp with ⟨dm, dt, hd⟩
          refine ⟨dm, dt, ?_⟩
          rw [lookupFS_insert_ne _ _ _ _ (hqne q hq hqp)]
          exact hd
      · rename_i hl
        injection h with h
        subst h
        constructor
        · rw [lookupFS_insert_self]
          rw [hsame] at hl
          rw [hl]
        · intro q hq hqp
          rcases hpar q hq hqp with ⟨dm, dt, hd⟩
          refine ⟨dm, dt, ?_⟩
          rw [lookupFS_insert_ne _ _ _ _ (hqne q hq hqp)]
          exact hd

/-- C8 witness: a directory-mode `Put` on an empty store creates the
requested directory with the given permission bits. -/
theorem put_modes_spec_witness :
    lookupFS [(["r", "A", "d"], Node.dir (2 ^ 31 + 448) 6),
              (["r", "A"], Node.dir (2 ^ 31 + 448) 6),
              (["r"], Node.dir (2 ^ 31 + 448) 6)] ["r", "A", "d"]
      = some (Node.dir (2 ^ 31 + 448) 6) :=
  (((put_modes_spec [] ["r"] "A" ["d"] [] (2 ^ 31 + 448) 6).1 (by decide)).2.1
      [(["r", "A", "d"], Node.dir (2 ^ 31 + 448) 6),
       (["r", "A"], Node.dir (2 ^ 31 + 448) 6),
       (["r"], Node.dir (2 ^ 31 + 448) 6)] (by rfl)).2
    ["r", "A", "d"] (by decide) (by decide) rfl

/-- C9: every handle a successful `Get` returns supports sequential
read-to-completion and a release operation, and release succeeds without
error — it takes no account of whether anything was read first. -/
theorem get_handle_close_safe (fs : FS) (root : AbsPath) (id : String)
    (p : List String) (h : Handle)
    (_hget : (Get fs root id p).result = .ok h) :
    closeHandle h = .ok () ∧ ∃ bs : Bytes, readAll h = bs :=
  ⟨rfl, ⟨readAll h, rfl⟩⟩

/-- C9 witness: closing the handle returned for a concrete file. -/
theorem get_handle_close_safe_witness :
    closeHandle (.osFile [7] (fileInfoOfNode "f" (Node.file [7] 438 5))) = .ok () ∧
    ∃ bs : Bytes, readAll (.osFile [7] (fileInfoOfNode "f" (Node.file [7] 438 5))) = bs :=
  get_handle_close_safe [(["r", "A", "f"], Node.file [7] 438 5)] ["r"] "A" ["f"] _ rfl

/-- C10: for a path resolving to an existing empty directory, the listing
document `Get` returns is the JSON encoding of an empty array — the bytes
`[]` followed by a newline — and not the `null` that a nil slice would
encode to, because the entry slice is initialized non-nil. -/
theorem get_empty_directory_listing (fs : FS) (root : AbsPath) (id : String)
    (p : List String) (dm dt : Nat)
    (hdir : lookupFS fs (resolve root id p) = some (.dir dm dt))
    (hempty : childKeys fs (resolve root id p) = []) :
    (Get fs root id p).result
      = .ok (.dirFile "[]\n"
          (fileInfoOfNode (baseName (resolve root id p)) (.dir dm dt))) ∧
    "[]\n" ≠ encodeJsonSlice none := by
  constructor
  · have hl : listing fs (resolve root id p) = [] := by
      rw [listing, childNames, hempty]
      rfl
    simp only [Get, hdir, hl]
    rfl
  · intro hcontra
    exact absurd hcontra (by decide)

/-- C10 witness: listing a concrete empty directory. -/
theorem get_empty_directory_listing_witness :
    (Get [(["r", "A", "e"], Node.dir 448 2)] ["r"] "A" ["e"]).result
      = .ok (.dirFile "[]\n"
          (fileInfoOfNode (baseName (resolve ["r"] "A" ["e"])) (.dir 448 2))) ∧
    "[]\n" ≠ encodeJsonSlice none :=
  get_empty_directory_listing [(["r", "A", "e"], Node.dir 448 2)] ["r"] "A" ["e"] 448 2 rfl rfl

end LocalStorage
